import Mathlib

/-!
Verification of `src/common/base/ConcurrentLRUCache.h` (nebula repository):
a sharded, capacity-bounded, least-recently-used key/value cache.

The C++ header defines three layers:
* `LRU<K, V>`   — a single-threaded LRU core: a recency list (`list_`, head =
  most recently used) plus a map from key to (value, position).  Since the two
  structures always hold exactly the same keys, the embedding merges them into
  one recency-ordered association list `entries` (head = most recently used).
* `Bucket`      — wraps one `LRU` behind a mutex.  In this sequential model the
  lock is a no-op; `Bucket` operations are the `LRU` operations with the
  `StatusOr` result conversion performed by the C++ `Bucket` methods.
* `ConcurrentLRUCache` — a vector of buckets plus the routing rule
  `bucketIndex` (hint used verbatim when non-negative, hash of the key
  otherwise, both masked to the low `bucketsExp` bits).

Machine integers: `capacity` is `size_t`, embedded as `Nat` (no subtraction in
the source can underflow, proved where used); `hint` is `int32_t`, embedded as
`Int`; `bucketsNum_ = 1 << bucketsExp` is embedded as `2 ^ bucketsExp : Nat`,
exact for every `bucketsExp` for which the C++ shift is defined behaviour.
-/

namespace Nebula

/-- Mirrors `StatusOr<V>`: either a `Status` (`Error` or `Inserted`) or a
value. -/
inductive StatusOr (V : Type) where
  | error : StatusOr V
  | inserted : StatusOr V
  | ok : V → StatusOr V
deriving DecidableEq, Repr

/-- State of one `LRU<K, V>`: the recency-ordered entries (head = most
recently used, tail = least recently used) and the fixed capacity.  `entries`
merges the C++ `list_` (its key sequence) and `map_` (the value attached to
each key). -/
structure LRU (K V : Type) where
  entries : List (K × V)
  capacity : Nat
deriving DecidableEq, Repr

/-- Predicate selecting the entry of a given key, as `map_.find(key)` does. -/
def keyIs [DecidableEq K] (k : K) (p : K × V) : Bool :=
  decide (p.1 = k)

/-- Mirrors `LRU::size()`: `map_.size()`. -/
def LRU.size (s : LRU K V) : Nat :=
  s.entries.length

/-- Mirrors `LRU::contains(key)`: `map_.find(key) != map_.end()`. -/
def LRU.contains [DecidableEq K] (s : LRU K V) (k : K) : Bool :=
  s.entries.any (keyIs k)

/-- Value the map currently stores for `key` (the value component of
`map_[key]`), used to phrase claims; not itself an operation of the header. -/
def LRU.lookup [DecidableEq K] (s : LRU K V) (k : K) : Option V :=
  (s.entries.find? (keyIs k)).map Prod.snd

/-- Mirrors the private `LRU::evict()`: erase `--list_.end()`, the least
recently used entry, from both structures. -/
def LRU.evictOldest (s : LRU K V) : LRU K V :=
  { s with entries := s.entries.dropLast }

/-- Mirrors `LRU::insert(key, value)`: no-op when the key is present;
otherwise evict the tail first when `size() >= capacity_`, then push the new
entry at the front. -/
def LRU.insert [DecidableEq K] (s : LRU K V) (k : K) (v : V) : LRU K V :=
  if s.contains k then s
  else if s.capacity ≤ s.size then
    { s with entries := (k, v) :: s.evictOldest.entries }
  else
    { s with entries := (k, v) :: s.entries }

/-- Mirrors `LRU::get(key)`: `boost::none` on a miss; on a hit return the
stored value, splicing the entry to the front of the recency list unless it
already is the front (`j != list_.begin()`).  The entry found by
`map_.find(key)` sits at `list_.begin()` exactly when the head entry's key
matches. -/
def LRU.get [DecidableEq K] (s : LRU K V) (k : K) : LRU K V × Option V :=
  match s.entries.find? (keyIs k) with
  | none => (s, none)
  | some pv =>
    if s.entries.head?.any (keyIs k) then
      (s, some pv.2)
    else
      ({ s with entries := (k, pv.2) :: s.entries.eraseP (keyIs k) }, some pv.2)

/-- Mirrors `LRU::evict(key)`: erase the key's entry from list and map when
present, no-op otherwise (`List.eraseP` is the identity when nothing
matches). -/
def LRU.evict [DecidableEq K] (s : LRU K V) (k : K) : LRU K V :=
  { s with entries := s.entries.eraseP (keyIs k) }

/-- Mirrors `LRU::clear()`. -/
def LRU.clear (s : LRU K V) : LRU K V :=
  { s with entries := [] }

/-- Invariant of the C++ `unordered_map`: one entry per key. -/
def LRU.wellFormed (s : LRU K V) : Prop :=
  (s.entries.map Prod.fst).Nodup

/-- Mirrors `Bucket::get`: `Status::Error()` when the inner `get` yields
`boost::none`, the value otherwise.  The mutex is a no-op sequentially. -/
def Bucket.get [DecidableEq K] (s : LRU K V) (k : K) : LRU K V × StatusOr V :=
  match LRU.get s k with
  | (s', none) => (s', StatusOr.error)
  | (s', some v) => (s', StatusOr.ok v)

/-- Mirrors `Bucket::putIfAbsent`: a recency-updating `lru_->get(key)`, then
on a miss `lru_->insert(key, val)` and `Status::Inserted()`, on a hit the
pre-existing value. -/
def Bucket.putIfAbsent [DecidableEq K] (s : LRU K V) (k : K) (v : V) :
    LRU K V × StatusOr V :=
  match LRU.get s k with
  | (s', none) => (LRU.insert s' k v, StatusOr.inserted)
  | (s', some v0) => (s', StatusOr.ok v0)

/-- State of a `ConcurrentLRUCache<K, V>`: the bucket vector and
`bucketsExp_`.  `bucketsNum_` is `2 ^ bucketsExp`. -/
structure ConcurrentLRUCache (K V : Type) where
  buckets : List (LRU K V)
  bucketsExp : Nat
deriving DecidableEq, Repr

/-- Mirrors `ConcurrentLRUCache::bucketIndex(key, hint)`:
`hint >= 0 ? hint & ((1 << bucketsExp_) - 1) : hash(key) & ((1 << bucketsExp_) - 1)`.
The `std::hash` instantiation is an arbitrary parameter `hash`. -/
def bucketIndex (hash : K → Nat) (bucketsExp : Nat) (k : K) (hint : Int) : Nat :=
  if 0 ≤ hint then Int.toNat hint &&& (2 ^ bucketsExp - 1)
  else hash k &&& (2 ^ bucketsExp - 1)

/-- Mirrors the constructor `ConcurrentLRUCache(capacity, bucketsExp)`.
`none` models a fatal `CHECK` failure.  The first check is
`capacity > bucketsNum_ && bucketsNum_ > 0`; the loop gives each of the first
`bucketsNum_ - 1` buckets `capacity >> bucketsExp` and decrements `left` that
many times (iterated truncated subtraction equals `capacity - (n-1)*per`), and
`CHECK_GT(left, 0)` guards the last bucket, which receives `left`. -/
def ConcurrentLRUCache.mk? (K V : Type) (capacity : Nat) (bucketsExp : Nat) :
    Option (ConcurrentLRUCache K V) :=
  if 2 ^ bucketsExp < capacity ∧ 0 < 2 ^ bucketsExp then
    if 0 < capacity - (2 ^ bucketsExp - 1) * (capacity >>> bucketsExp) then
      some { buckets :=
               List.replicate (2 ^ bucketsExp - 1)
                 { entries := [], capacity := capacity >>> bucketsExp } ++
               [{ entries := [],
                  capacity := capacity - (2 ^ bucketsExp - 1) * (capacity >>> bucketsExp) }],
             bucketsExp := bucketsExp }
    else none
  else none

/-- The bucket an operation on `(key, hint)` is routed to:
`buckets_[bucketIndex(key, hint)]`. -/
def ConcurrentLRUCache.shardOf [DecidableEq K] (hash : K → Nat)
    (c : ConcurrentLRUCache K V) (k : K) (hint : Int) : LRU K V :=
  c.buckets.getD (bucketIndex hash c.bucketsExp k hint) { entries := [], capacity := 0 }

/-- Mirrors `ConcurrentLRUCache::contains(key, hint)`. -/
def ConcurrentLRUCache.contains [DecidableEq K] (hash : K → Nat)
    (c : ConcurrentLRUCache K V) (k : K) (hint : Int) : Bool :=
  (c.shardOf hash k hint).contains k

/-- Mirrors `ConcurrentLRUCache::insert(key, val, hint)`. -/
def ConcurrentLRUCache.insert [DecidableEq K] (hash : K → Nat)
    (c : ConcurrentLRUCache K V) (k : K) (v : V) (hint : Int) :
    ConcurrentLRUCache K V :=
  let i := bucketIndex hash c.bucketsExp k hint
  { c with buckets := c.buckets.set i (LRU.insert (c.shardOf hash k hint) k v) }

/-- Mirrors `ConcurrentLRUCache::get(key, hint)`. -/
def ConcurrentLRUCache.get [DecidableEq K] (hash : K → Nat)
    (c : ConcurrentLRUCache K V) (k : K) (hint : Int) :
    ConcurrentLRUCache K V × StatusOr V :=
  let i := bucketIndex hash c.bucketsExp k hint
  let r := Bucket.get (c.shardOf hash k hint) k
  ({ c with buckets := c.buckets.set i r.1 }, r.2)

/-- Mirrors `ConcurrentLRUCache::putIfAbsent(key, val, hint)`. -/
def ConcurrentLRUCache.putIfAbsent [DecidableEq K] (hash : K → Nat)
    (c : ConcurrentLRUCache K V) (k : K) (v : V) (hint : Int) :
    ConcurrentLRUCache K V × StatusOr V :=
  let i := bucketIndex hash c.bucketsExp k hint
  let r := Bucket.putIfAbsent (c.shardOf hash k hint) k v
  ({ c with buckets := c.buckets.set i r.1 }, r.2)

/-- Mirrors `ConcurrentLRUCache::evict(key, hint)`. -/
def ConcurrentLRUCache.evict [DecidableEq K] (hash : K → Nat)
    (c : ConcurrentLRUCache K V) (k : K) (hint : Int) :
    ConcurrentLRUCache K V :=
  let i := bucketIndex hash c.bucketsExp k hint
  { c with buckets := c.buckets.set i (LRU.evict (c.shardOf hash k hint) k) }

/-- Mirrors `ConcurrentLRUCache::clear()`: every bucket is cleared (the loop
over `buckets_`). -/
def ConcurrentLRUCache.clear (c : ConcurrentLRUCache K V) :
    ConcurrentLRUCache K V :=
  { c with buckets := c.buckets.map LRU.clear }

/-- One public mutating call on the cache (results discarded). -/
inductive CacheOp (K V : Type) where
  | insert (k : K) (v : V) (hint : Int)
  | get (k : K) (hint : Int)
  | putIfAbsent (k : K) (v : V) (hint : Int)
  | evict (k : K) (hint : Int)
  | clear

/-- Applies one call to the cache state. -/
def applyOp [DecidableEq K] (hash : K → Nat) (c : ConcurrentLRUCache K V) :
    CacheOp K V → ConcurrentLRUCache K V
  | CacheOp.insert k v hint => c.insert hash k v hint
  | CacheOp.get k hint => (c.get hash k hint).1
  | CacheOp.putIfAbsent k v hint => (c.putIfAbsent hash k v hint).1
  | CacheOp.evict k hint => c.evict hash k hint
  | CacheOp.clear => c.clear

/-- Applies a sequence of calls left to right. -/
def applyOps [DecidableEq K] (hash : K → Nat) (c : ConcurrentLRUCache K V)
    (ops : List (CacheOp K V)) : ConcurrentLRUCache K V :=
  ops.foldl (applyOp hash) c

/-- C1.  On the single shard of a cache built with capacity 4 and
`bucketsExp = 0` (every call routed with hint 0), inserting the distinct keys
A = 0, B = 1, C = 2, D = 3, then `get(A)`, then inserting E = 4 evicts exactly
B: afterwards A, C, D, E are present and B is not. -/
theorem recency_scenario_evicts_B :
    ConcurrentLRUCache.mk? Nat Nat 4 0 =
      some { buckets := [{ entries := [], capacity := 4 }], bucketsExp := 0 } ∧
    (ConcurrentLRUCache.contains (fun n => n)
      (applyOps (fun n => n)
        { buckets := [{ entries := [], capacity := 4 }], bucketsExp := 0 }
        [CacheOp.insert 0 10 0, CacheOp.insert 1 11 0, CacheOp.insert 2 12 0,
         CacheOp.insert 3 13 0, CacheOp.get 0 0, CacheOp.insert 4 14 0]) 0 0 = true ∧
     ConcurrentLRUCache.contains (fun n => n)
      (applyOps (fun n => n)
        { buckets := [{ entries := [], capacity := 4 }], bucketsExp := 0 }
        [CacheOp.insert 0 10 0, CacheOp.insert 1 11 0, CacheOp.insert 2 12 0,
         CacheOp.insert 3 13 0, CacheOp.get 0 0, CacheOp.insert 4 14 0]) 2 0 = true ∧
     ConcurrentLRUCache.contains (fun n => n)
      (applyOps (fun n => n)
        { buckets := [{ entries := [], capacity := 4 }], bucketsExp := 0 }
        [CacheOp.insert 0 10 0, CacheOp.insert 1 11 0, CacheOp.insert 2 12 0,
         CacheOp.insert 3 13 0, CacheOp.get 0 0, CacheOp.insert 4 14 0]) 3 0 = true ∧
     ConcurrentLRUCache.contains (fun n => n)
      (applyOps (fun n => n)
        { buckets := [{ entries := [], capacity := 4 }], bucketsExp := 0 }
        [CacheOp.insert 0 10 0, CacheOp.insert 1 11 0, CacheOp.insert 2 12 0,
         CacheOp.insert 3 13 0, CacheOp.get 0 0, CacheOp.insert 4 14 0]) 4 0 = true ∧
     ConcurrentLRUCache.contains (fun n => n)
      (applyOps (fun n => n)
        { buckets := [{ entries := [], capacity := 4 }], bucketsExp := 0 }
        [CacheOp.insert 0 10 0, CacheOp.insert 1 11 0, CacheOp.insert 2 12 0,
         CacheOp.insert 3 13 0, CacheOp.get 0 0, CacheOp.insert 4 14 0]) 1 0 = false) := by
  refine ⟨by decide, by decide, by decide, by decide, by decide, by decide⟩

/-- Capacity handed to the last bucket: the `left` remaining after the
constructor loop equals `capacity / numShards + capacity % numShards`. -/
lemma left_capacity_eq (capacity bucketsExp : Nat) :
    capacity - (2 ^ bucketsExp - 1) * (capacity >>> bucketsExp) =
      capacity / 2 ^ bucketsExp + capacity % 2 ^ bucketsExp := by
  have hpow : 0 < 2 ^ bucketsExp := Nat.two_pow_pos bucketsExp
  rw [Nat.shiftRight_eq_div_pow]
  have h1 : (2 ^ bucketsExp - 1) * (capacity / 2 ^ bucketsExp) +
      1 * (capacity / 2 ^ bucketsExp) = 2 ^ bucketsExp * (capacity / 2 ^ bucketsExp) := by
    rw [← Nat.add_mul, Nat.sub_add_cancel hpow]
  have h2 : 2 ^ bucketsExp * (capacity / 2 ^ bucketsExp) + capacity % 2 ^ bucketsExp =
      capacity := Nat.div_add_mod capacity (2 ^ bucketsExp)
  have h3 : (2 ^ bucketsExp - 1) * (capacity / 2 ^ bucketsExp) +
      (capacity / 2 ^ bucketsExp + capacity % 2 ^ bucketsExp) = capacity := by
    rw [← Nat.add_assoc]
    rw [show (2 ^ bucketsExp - 1) * (capacity / 2 ^ bucketsExp) + capacity / 2 ^ bucketsExp =
          2 ^ bucketsExp * (capacity / 2 ^ bucketsExp) by rw [← h1, Nat.one_mul]]
    exact h2
  exact Nat.sub_eq_of_eq_add (h3.symm.trans (Nat.add_comm _ _))

/-- First bucket capacity is at least 1 under the construction precondition. -/
lemma capPerBucket_pos (capacity bucketsExp : Nat) (h : 2 ^ bucketsExp < capacity) :
    0 < capacity / 2 ^ bucketsExp :=
  Nat.one_le_div_iff (Nat.two_pow_pos bucketsExp) |>.2 (Nat.le_of_lt h)

/-- Under the precondition, the constructor's `CHECK_GT(left, 0)` holds. -/
lemma left_pos (capacity bucketsExp : Nat) (h : 2 ^ bucketsExp < capacity) :
    0 < capacity - (2 ^ bucketsExp - 1) * (capacity >>> bucketsExp) := by
  rw [left_capacity_eq capacity bucketsExp]
  exact Nat.lt_of_lt_of_le (capPerBucket_pos capacity bucketsExp h) (Nat.le_add_right _ _)

/-- Successful construction, in closed form. -/
lemma mk?_eq_some (K V : Type) (capacity bucketsExp : Nat)
    (h : 2 ^ bucketsExp < capacity) :
    ConcurrentLRUCache.mk? K V capacity bucketsExp =
      some { buckets :=
               List.replicate (2 ^ bucketsExp - 1)
                 { entries := [], capacity := capacity / 2 ^ bucketsExp } ++
               [{ entries := [],
                  capacity := capacity / 2 ^ bucketsExp + capacity % 2 ^ bucketsExp }],
             bucketsExp := bucketsExp } := by
  rw [ConcurrentLRUCache.mk?, if_pos ⟨h, Nat.two_pow_pos bucketsExp⟩,
    if_pos (left_pos capacity bucketsExp h)]
  rw [left_capacity_eq capacity bucketsExp, Nat.shiftRight_eq_div_pow]

/-- C2.  With `capacity > numShards = 2 ^ bucketsExp`, construction succeeds;
each of the first `numShards - 1` shards receives capacity
`capacity / numShards`, the last shard receives `capacity / numShards` plus
the whole remainder `capacity % numShards`, and the shard capacities sum to
`capacity`. -/
theorem shard_capacity_split (K V : Type) (capacity bucketsExp : Nat)
    (h : 2 ^ bucketsExp < capacity) :
    ∃ c : ConcurrentLRUCache K V,
      ConcurrentLRUCache.mk? K V capacity bucketsExp = some c ∧
      c.buckets.length = 2 ^ bucketsExp ∧
      (∀ b ∈ c.buckets.take (2 ^ bucketsExp - 1),
        b.capacity = capacity / 2 ^ bucketsExp) ∧
      (∀ b ∈ c.buckets.drop (2 ^ bucketsExp - 1),
        b.capacity = capacity / 2 ^ bucketsExp + capacity % 2 ^ bucketsExp) ∧
      (c.buckets.map LRU.capacity).sum = capacity := by
  refine ⟨_, mk?_eq_some K V capacity bucketsExp h, ?_, ?_, ?_, ?_⟩
  · simp [Nat.sub_add_cancel (Nat.two_pow_pos bucketsExp)]
  · intro b hb
    rw [List.take_left' (by simp)] at hb
    exact congrArg LRU.capacity (List.eq_of_mem_replicate hb)
  · intro b hb
    rw [List.drop_left' (by simp)] at hb
    simp only [List.mem_singleton] at hb
    rw [hb]
  · rw [List.map_append, List.sum_append, List.map_replicate]
    simp only [List.map_cons, List.map_nil, List.sum_cons, List.sum_nil,
      List.sum_replicate, smul_eq_mul, Nat.add_zero]
    have h1 : (2 ^ bucketsExp - 1) * (capacity / 2 ^ bucketsExp) +
        1 * (capacity / 2 ^ bucketsExp) = 2 ^ bucketsExp * (capacity / 2 ^ bucketsExp) := by
      rw [← Nat.add_mul, Nat.sub_add_cancel (Nat.two_pow_pos bucketsExp)]
    rw [← Nat.add_assoc]
    rw [show (2 ^ bucketsExp - 1) * (capacity / 2 ^ bucketsExp) + capacity / 2 ^ bucketsExp =
          2 ^ bucketsExp * (capacity / 2 ^ bucketsExp) by rw [← h1, Nat.one_mul]]
    exact Nat.div_add_mod capacity (2 ^ bucketsExp)

/-- Witness for C2 at `capacity = 10`, `bucketsExp = 2`. -/
theorem shard_capacity_split_witness :
    2 ^ 2 < 10 ∧
    (∃ c : ConcurrentLRUCache Nat Nat,
      ConcurrentLRUCache.mk? Nat Nat 10 2 = some c ∧
      c.buckets.length = 2 ^ 2 ∧
      (∀ b ∈ c.buckets.take (2 ^ 2 - 1), b.capacity = 10 / 2 ^ 2) ∧
      (∀ b ∈ c.buckets.drop (2 ^ 2 - 1), b.capacity = 10 / 2 ^ 2 + 10 % 2 ^ 2) ∧
      (c.buckets.map LRU.capacity).sum = 10) :=
  ⟨by decide, shard_capacity_split Nat Nat 10 2 (by decide)⟩

/-- C3.  Construction fails (no instance is produced) exactly when
`capacity ≤ numShards` or `numShards = 0`, where `numShards = 2 ^ bucketsExp`;
whenever `capacity > numShards > 0` construction succeeds. -/
theorem construction_succeeds_iff (K V : Type) (capacity bucketsExp : Nat) :
    (ConcurrentLRUCache.mk? K V capacity bucketsExp = none ↔
      capacity ≤ 2 ^ bucketsExp ∨ 2 ^ bucketsExp = 0) ∧
    (2 ^ bucketsExp < capacity ∧ 0 < 2 ^ bucketsExp →
      ∃ c, ConcurrentLRUCache.mk? K V capacity bucketsExp = some c) := by
  constructor
  · by_cases h : 2 ^ bucketsExp < capacity
    · rw [mk?_eq_some K V capacity bucketsExp h]
      simp [Nat.not_le.2 h, Nat.pos_iff_ne_zero.1 (Nat.two_pow_pos bucketsExp)]
    · rw [ConcurrentLRUCache.mk?, if_neg (fun hc => h hc.1)]
      simp [Nat.not_lt.1 h]
  · intro hc
    exact ⟨_, mk?_eq_some K V capacity bucketsExp hc.1⟩

/-- Witness for C3 at `capacity = 10`, `bucketsExp = 2` (success side) and at
`capacity = 4`, `bucketsExp = 2` (failure side). -/
theorem construction_succeeds_iff_witness :
    (2 ^ 2 < 10 ∧ 0 < 2 ^ 2) ∧
    (∃ c, ConcurrentLRUCache.mk? Nat Nat 10 2 = some c) ∧
    ConcurrentLRUCache.mk? Nat Nat 4 2 = none :=
  ⟨by decide, (construction_succeeds_iff Nat Nat 10 2).2 (by decide),
    (construction_succeeds_iff Nat Nat 4 2).1.2 (Or.inl (by decide))⟩

/-- Routing always lands below `numShards = 2 ^ bucketsExp`. -/
lemma bucketIndex_lt {K : Type} (hash : K → Nat) (bucketsExp : Nat) (k : K)
    (hint : Int) : bucketIndex hash bucketsExp k hint < 2 ^ bucketsExp := by
  rw [bucketIndex]
  by_cases hh : 0 ≤ hint
  · rw [if_pos hh, Nat.and_pow_two_sub_one_eq_mod]
    exact Nat.mod_lt _ (Nat.two_pow_pos bucketsExp)
  · rw [if_neg hh, Nat.and_pow_two_sub_one_eq_mod]
    exact Nat.mod_lt _ (Nat.two_pow_pos bucketsExp)

/-- C4.  The shard index equals `hint & (numShards - 1)`, i.e.
`hint mod numShards`, when `hint ≥ 0`, equals `hash(key) & (numShards - 1)`,
i.e. `hash(key) mod numShards`, when `hint < 0`, and in both cases is a valid
index below `numShards = 2 ^ bucketsExp`. -/
theorem bucketIndex_spec (K : Type) (hash : K → Nat) (bucketsExp : Nat)
    (k : K) (hint : Int) :
    (0 ≤ hint →
      bucketIndex hash bucketsExp k hint = Int.toNat hint % 2 ^ bucketsExp) ∧
    (hint < 0 →
      bucketIndex hash bucketsExp k hint = hash k % 2 ^ bucketsExp) ∧
    bucketIndex hash bucketsExp k hint < 2 ^ bucketsExp := by
  refine ⟨?_, ?_, ?_⟩
  · intro hh
    rw [bucketIndex, if_pos hh, Nat.and_pow_two_sub_one_eq_mod]
  · intro hh
    rw [bucketIndex, if_neg (Int.not_le.2 hh), Nat.and_pow_two_sub_one_eq_mod]
  · exact bucketIndex_lt hash bucketsExp k hint

/-- Witness for C4 at `hash = id`, `bucketsExp = 3`, key 5, hints 13 and
-1. -/
theorem bucketIndex_spec_witness :
    ((0 : Int) ≤ 13 ∧ bucketIndex (fun n : Nat => n) 3 5 13 = Int.toNat 13 % 2 ^ 3) ∧
    ((-1 : Int) < 0 ∧ bucketIndex (fun n : Nat => n) 3 5 (-1) = 5 % 2 ^ 3) :=
  ⟨⟨by decide, (bucketIndex_spec Nat (fun n => n) 3 5 13).1 (by decide)⟩,
   ⟨by decide, (bucketIndex_spec Nat (fun n => n) 3 5 (-1)).2.1 (by decide)⟩⟩

section LRULemmas

variable {K V : Type} [DecidableEq K]

/-- A key the LRU does not contain matches no entry. -/
lemma not_keyIs_of_contains_false {s : LRU K V} {k : K}
    (h : s.contains k = false) : ∀ p ∈ s.entries, ¬keyIs k p = true := by
  intro p hp
  exact List.any_eq_false.1 h p hp

/-- On a key the LRU does not contain, `find?` comes back empty. -/
lemma find?_eq_none_of_contains_false {s : LRU K V} {k : K}
    (h : s.contains k = false) : s.entries.find? (keyIs k) = none :=
  List.find?_eq_none.2 (not_keyIs_of_contains_false h)

/-- Mirrors the `boost::none` path of `LRU::get`: a miss leaves the state
untouched. -/
lemma get_of_contains_false {s : LRU K V} {k : K} (h : s.contains k = false) :
    s.get k = (s, none) := by
  simp [LRU.get, find?_eq_none_of_contains_false h]

/-- Hit path of `LRU::get`: the stored value is returned, the entry ends up
at the head of the recency list, and capacity and size are unchanged. -/
lemma get_of_contains_true {s : LRU K V} {k : K} (h : s.contains k = true) :
    ∃ v0, s.lookup k = some v0 ∧
      (s.get k).2 = some v0 ∧
      ((s.get k).1).entries.head? = some (k, v0) ∧
      (s.get k).1.capacity = s.capacity ∧
      (s.get k).1.size = s.size := by
  obtain ⟨x, hxmem, hxp⟩ := List.any_eq_true.1 h
  obtain ⟨pv, hpv⟩ := Option.isSome_iff_exists.1
    (List.find?_isSome.2 ⟨x, hxmem, hxp⟩)
  have hk : pv.1 = k := by simpa [keyIs] using List.find?_some hpv
  have hmem : pv ∈ s.entries := List.mem_of_find?_eq_some hpv
  have hlen : 0 < s.entries.length :=
    List.length_pos.2 (List.ne_nil_of_mem hmem)
  refine ⟨pv.2, by rw [LRU.lookup, hpv]; rfl, ?_⟩
  by_cases hh : s.entries.head?.any (keyIs k) = true
  · have hget : s.get k = (s, some pv.2) := by
      simp [LRU.get, hpv, hh]
    obtain ⟨q, t, hqt⟩ : ∃ q t, s.entries = q :: t := by
      cases hE : s.entries with
      | nil => rw [hE] at hlen; simp at hlen
      | cons q t => exact ⟨q, t, rfl⟩
    have hq : keyIs k q = true := by
      rw [hqt] at hh
      simpa using hh
    have hqpv : q = pv := by
      have : s.entries.find? (keyIs k) = some q := by
        rw [hqt, List.find?_cons_of_pos _ hq]
      rw [this] at hpv
      exact Option.some.inj hpv
    refine ⟨by rw [hget], ?_, by rw [hget], by rw [hget]⟩
    rw [hget, hqt]
    simp only [List.head?_cons, hqpv]
    rw [show (k, pv.2) = pv from by rw [← hk]]
  · have hget : s.get k =
        ({ s with entries := (k, pv.2) :: s.entries.eraseP (keyIs k) },
         some pv.2) := by
      simp [LRU.get, hpv, hh]
    refine ⟨by simp [hget], by simp [hget], by simp [hget], ?_⟩
    rw [hget]
    show ((k, pv.2) :: s.entries.eraseP (keyIs k)).length = s.entries.length
    rw [List.length_cons, List.length_eraseP_of_mem hmem (by rw [keyIs, hk]; simp)]
    omega

/-- After inserting an absent key, the new entry sits at the head; the
capacity field is unchanged. -/
lemma insert_head {s : LRU K V} {k : K} (v : V) (h : s.contains k = false) :
    ∃ t, (s.insert k v).entries = (k, v) :: t ∧
      (s.insert k v).capacity = s.capacity := by
  rw [LRU.insert, if_neg (by simp [h])]
  by_cases hc : s.capacity ≤ s.size
  · rw [if_pos hc]
    exact ⟨_, rfl, rfl⟩
  · rw [if_neg hc]
    exact ⟨_, rfl, rfl⟩

/-- An LRU whose head entry has key `k` contains `k`. -/
lemma contains_of_entries_cons {s : LRU K V} {k : K} {v : V}
    {t : List (K × V)} (h : s.entries = (k, v) :: t) : s.contains k = true := by
  rw [LRU.contains, h]
  simp [keyIs]

/-- `LRU::get` on a key whose entry is already at the head returns the value
and leaves the state untouched (the `j != list_.begin()` test fails). -/
lemma get_of_entries_cons {s : LRU K V} {k : K} {v : V} {t : List (K × V)}
    (h : s.entries = (k, v) :: t) : s.get k = (s, some v) := by
  have hf : s.entries.find? (keyIs k) = some (k, v) := by
    rw [h, List.find?_cons_of_pos _ (by simp [keyIs])]
  have hh : s.entries.head?.any (keyIs k) = true := by
    rw [h]
    simp [keyIs]
  simp [LRU.get, hf, hh]

/-- C5.  Inserting `k` twice never overwrites: after `insert(k, v1)` on a
state without `k`, a second `insert(k, v2)` leaves the LRU — entries, recency
order and capacity — completely unchanged, and `get(k)` then returns `v1`,
not `v2`. -/
theorem insert_no_overwrite (K V : Type) [DecidableEq K] (s : LRU K V)
    (k : K) (v1 v2 : V) (h : s.contains k = false) :
    (s.insert k v1).insert k v2 = s.insert k v1 ∧
    ((s.insert k v1).insert k v2).get k = (s.insert k v1, some v1) := by
  obtain ⟨t, ht, -⟩ := insert_head v1 h
  have hc1 : (s.insert k v1).contains k = true := contains_of_entries_cons ht
  have h2 : (s.insert k v1).insert k v2 = s.insert k v1 := by
    rw [LRU.insert, if_pos (by simp [hc1])]
  exact ⟨h2, by rw [h2]; exact get_of_entries_cons ht⟩

/-- Witness for C5: a state holding key 2, inserting key 1 twice. -/
theorem insert_no_overwrite_witness :
    LRU.contains { entries := [(2, 9)], capacity := 3 } 1 = false ∧
    ((LRU.insert (LRU.insert { entries := [(2, 9)], capacity := 3 } 1 5) 1 6) =
       LRU.insert { entries := [(2, 9)], capacity := 3 } 1 5 ∧
     LRU.get (LRU.insert (LRU.insert { entries := [(2, 9)], capacity := 3 } 1 5) 1 6) 1 =
       (LRU.insert { entries := [(2, 9)], capacity := 3 } 1 5, some 5)) :=
  ⟨by decide, insert_no_overwrite Nat Nat { entries := [(2, 9)], capacity := 3 } 1 5 6 (by decide)⟩

/-- C8.  Evicting an absent key is a no-op, and (on any state whose map is
well formed, i.e. holds one entry per key) evicting the same key twice equals
evicting it once. -/
theorem evict_idempotent (K V : Type) [DecidableEq K] (s : LRU K V) (k : K) :
    (s.contains k = false → s.evict k = s) ∧
    (s.wellFormed → (s.evict k).evict k = s.evict k) := by
  constructor
  · intro h
    rw [LRU.evict]
    rw [List.eraseP_of_forall_not (not_keyIs_of_contains_false h)]
  · intro hwf
    by_cases h : s.contains k = true
    · obtain ⟨x, hxmem, hxp⟩ := List.any_eq_true.1 h
      obtain ⟨a, l1, l2, hl1, hpa, hsplit, herase⟩ :=
        List.exists_of_eraseP hxmem hxp
      have hak : a.1 = k := of_decide_eq_true hpa
      have hl2 : ∀ b ∈ l2, ¬keyIs k b = true := by
        intro b hb hbk
        have hbak : b.1 = a.1 := (of_decide_eq_true hbk).trans hak.symm
        have hnd : ((l1 ++ a :: l2).map Prod.fst).Nodup := by
          rw [← hsplit]
          exact hwf
        rw [List.map_append, List.map_cons] at hnd
        have := (List.nodup_append.1 hnd).2.1
        rw [List.nodup_cons] at this
        exact this.1 (hbak ▸ List.mem_map_of_mem Prod.fst hb)
      show { s with entries := (s.entries.eraseP (keyIs k)).eraseP (keyIs k) } =
        { s with entries := s.entries.eraseP (keyIs k) }
      rw [herase, List.eraseP_of_forall_not (by
        intro b hb
        rcases List.mem_append.1 hb with hbl | hbl
        · exact hl1 b hbl
        · exact hl2 b hbl)]
    · have hfalse : s.contains k = false := by
        cases hc : s.contains k with
        | false => rfl
        | true => exact absurd hc h
      have h1 : s.evict k = s := by
        rw [LRU.evict]
        rw [List.eraseP_of_forall_not (not_keyIs_of_contains_false hfalse)]
      simp only [h1]

/-- Witness for C8: a two-entry well-formed state, keys 1 and 2, evicting
key 3 (absent) and key 1 (twice). -/
theorem evict_idempotent_witness :
    (LRU.contains { entries := [(1, 10), (2, 20)], capacity := 4 } 3 = false ∧
     LRU.evict { entries := [(1, 10), (2, 20)], capacity := 4 } 3 =
       { entries := [(1, 10), (2, 20)], capacity := 4 }) ∧
    (LRU.wellFormed { entries := [(1, 10), (2, 20)], capacity := 4 } ∧
     LRU.evict (LRU.evict { entries := [(1, 10), (2, 20)], capacity := 4 } 1) 1 =
       LRU.evict { entries := [(1, 10), (2, 20)], capacity := 4 } 1) :=
  ⟨⟨by decide,
    (evict_idempotent Nat Nat { entries := [(1, 10), (2, 20)], capacity := 4 } 3).1 (by decide)⟩,
   ⟨by rw [LRU.wellFormed]; decide,
    (evict_idempotent Nat Nat { entries := [(1, 10), (2, 20)], capacity := 4 } 1).2
      (by rw [LRU.wellFormed]; decide)⟩⟩

/-- C10.  `putIfAbsent` on a present key returns the pre-existing value, and
because the presence check goes through the recency-updating `LRU::get`, it
leaves the bucket in exactly the state `get(k)` would, with `k` promoted to
the head (most recently used) of the recency list. -/
theorem putIfAbsent_promotes (K V : Type) [DecidableEq K] (s : LRU K V)
    (k : K) (v : V) (h : s.contains k = true) :
    ∃ v0, s.lookup k = some v0 ∧
      Bucket.putIfAbsent s k v = ((s.get k).1, StatusOr.ok v0) ∧
      ((s.get k).1).entries.head? = some (k, v0) := by
  obtain ⟨v0, hlook, hv2, hhead, -, -⟩ := get_of_contains_true h
  refine ⟨v0, hlook, ?_, hhead⟩
  have hpair : LRU.get s k = ((s.get k).1, some v0) := by
    rw [← hv2]
  rw [Bucket.putIfAbsent, hpair]

/-- Witness for C10: key 1 present (not at the head) with value 10. -/
theorem putIfAbsent_promotes_witness :
    LRU.contains { entries := [(2, 20), (1, 10)], capacity := 4 } 1 = true ∧
    (∃ v0, LRU.lookup { entries := [(2, 20), (1, 10)], capacity := 4 } 1 = some v0 ∧
      Bucket.putIfAbsent { entries := [(2, 20), (1, 10)], capacity := 4 } 1 99 =
        ((LRU.get { entries := [(2, 20), (1, 10)], capacity := 4 } 1).1, StatusOr.ok v0) ∧
      ((LRU.get { entries := [(2, 20), (1, 10)], capacity := 4 } 1).1).entries.head? =
        some (1, v0)) :=
  ⟨by decide,
   putIfAbsent_promotes Nat Nat { entries := [(2, 20), (1, 10)], capacity := 4 } 1 99 (by decide)⟩

end LRULemmas

section ListHelpers

variable {α β : Type}

/-- Writing back the element read at a valid index is a no-op. -/
lemma set_getD_self (l : List α) (i : Nat) (d : α) (h : i < l.length) :
    l.set i (l.getD i d) = l := by
  induction l generalizing i with
  | nil => simp at h
  | cons a t ih =>
    cases i with
    | zero => simp
    | succ n =>
      simp only [List.getD_cons_succ, List.set_cons_succ]
      rw [ih n (by simpa using h)]

/-- Reading back a freshly written valid index returns the written value. -/
lemma getD_set_self (l : List α) (i : Nat) (d a : α) (h : i < l.length) :
    (l.set i a).getD i d = a := by
  rw [List.getD_eq_getElem?_getD, List.getElem?_set_self h]
  rfl

/-- Writing one index leaves reads at any other index unchanged. -/
lemma getD_set_ne (l : List α) (i j : Nat) (d a : α) (h : i ≠ j) :
    (l.set i a).getD j d = l.getD j d := by
  rw [List.getD_eq_getElem?_getD, List.getElem?_set_ne h,
    ← List.getD_eq_getElem?_getD]

/-- The element read at a valid index belongs to the list. -/
lemma getD_mem (l : List α) (i : Nat) (d : α) (h : i < l.length) :
    l.getD i d ∈ l := by
  rw [List.getD_eq_getElem?_getD, List.getElem?_eq_getElem h]
  exact List.getElem_mem h

end ListHelpers

section CacheLemmas

variable {K V : Type} [DecidableEq K]

/-- C9.  `contains(key, hint)` answers exactly whether the key is present in
the shard selected by the routing rule; being a pure observation of
`map_.find`, it performs no mutation of any shard (its result type in this
embedding carries no state). -/
theorem contains_iff_present (K V : Type) [DecidableEq K] (hash : K → Nat)
    (c : ConcurrentLRUCache K V) (k : K) (hint : Int) :
    ConcurrentLRUCache.contains hash c k hint = true ↔
      ∃ v, (k, v) ∈ (c.shardOf hash k hint).entries := by
  rw [ConcurrentLRUCache.contains, LRU.contains, List.any_eq_true]
  constructor
  · rintro ⟨⟨k1, v1⟩, hp, hpk⟩
    have hpk1 : k1 = k := by simpa [keyIs] using hpk
    subst hpk1
    exact ⟨v1, hp⟩
  · rintro ⟨v, hv⟩
    exact ⟨(k, v), hv, by simp [keyIs]⟩

/-- Reading the routed shard back after writing it. -/
lemma shardOf_update (c : ConcurrentLRUCache K V) (hash : K → Nat) (k : K)
    (hint : Int) (b' : LRU K V)
    (hi : bucketIndex hash c.bucketsExp k hint < c.buckets.length) :
    ConcurrentLRUCache.shardOf hash
      { c with buckets := c.buckets.set (bucketIndex hash c.bucketsExp k hint) b' }
      k hint = b' := by
  show (c.buckets.set (bucketIndex hash c.bucketsExp k hint) b').getD
      (bucketIndex hash c.bucketsExp k hint) { entries := [], capacity := 0 } = b'
  exact getD_set_self _ _ _ _ hi

/-- C7.  `get(key, hint)` on a key absent from its routed shard returns
`Status::Error()` (NotFound) and leaves the whole cache state unchanged; on a
present key it returns the stored value, promotes the key to the head of its
shard's recency list, and touches no other shard. -/
theorem get_spec (K V : Type) [DecidableEq K] (hash : K → Nat)
    (c : ConcurrentLRUCache K V) (k : K) (hint : Int)
    (hWF : c.buckets.length = 2 ^ c.bucketsExp) :
    ((c.shardOf hash k hint).contains k = false →
      c.get hash k hint = (c, StatusOr.error)) ∧
    ((c.shardOf hash k hint).contains k = true →
      ∃ v0, (c.shardOf hash k hint).lookup k = some v0 ∧
        (c.get hash k hint).2 = StatusOr.ok v0 ∧
        ((c.get hash k hint).1.shardOf hash k hint).entries.head? = some (k, v0) ∧
        ∀ j, j ≠ bucketIndex hash c.bucketsExp k hint →
          (c.get hash k hint).1.buckets.getD j { entries := [], capacity := 0 } =
            c.buckets.getD j { entries := [], capacity := 0 }) := by
  have hi : bucketIndex hash c.bucketsExp k hint < c.buckets.length := by
    rw [hWF]
    exact bucketIndex_lt hash c.bucketsExp k hint
  constructor
  · intro h
    have hb : Bucket.get (c.shardOf hash k hint) k =
        (c.shardOf hash k hint, StatusOr.error) := by
      rw [Bucket.get, get_of_contains_false h]
    simp only [ConcurrentLRUCache.get, hb]
    rw [ConcurrentLRUCache.shardOf, set_getD_self _ _ _ hi]
  · intro h
    obtain ⟨v0, hlook, hv2, hhead, -, -⟩ := get_of_contains_true h
    have hpair : LRU.get (c.shardOf hash k hint) k =
        (((c.shardOf hash k hint).get k).1, some v0) := by
      rw [← hv2]
    have hbget : Bucket.get (c.shardOf hash k hint) k =
        (((c.shardOf hash k hint).get k).1, StatusOr.ok v0) := by
      rw [Bucket.get, hpair]
    refine ⟨v0, hlook, ?_, ?_, ?_⟩
    · simp only [ConcurrentLRUCache.get, hbget]
    · simp only [ConcurrentLRUCache.get, hbget]
      rw [shardOf_update c hash k hint _ hi]
      exact hhead
    · intro j hj
      simp only [ConcurrentLRUCache.get, hbget]
      exact getD_set_ne _ _ _ _ _ (fun hij => hj hij.symm)

/-- Bucket used to witness the cache-level theorems. -/
def sampleCache : ConcurrentLRUCache Nat Nat :=
  { buckets := [{ entries := [(2, 20), (7, 42)], capacity := 4 }],
    bucketsExp := 0 }

/-- Witness for C7: a one-shard cache, a miss on key 5, a hit on key 7 (which
is not at the head before the `get`). -/
theorem get_spec_witness :
    ((sampleCache.shardOf (fun n => n) 5 0).contains 5 = false ∧
     sampleCache.get (fun n => n) 5 0 = (sampleCache, StatusOr.error)) ∧
    ((sampleCache.shardOf (fun n => n) 7 0).contains 7 = true ∧
     ∃ v0, (sampleCache.shardOf (fun n => n) 7 0).lookup 7 = some v0 ∧
       (sampleCache.get (fun n => n) 7 0).2 = StatusOr.ok v0 ∧
       ((sampleCache.get (fun n => n) 7 0).1.shardOf (fun n => n) 7 0).entries.head? =
         some (7, v0) ∧
       ∀ j, j ≠ bucketIndex (fun n => n) sampleCache.bucketsExp 7 0 →
         (sampleCache.get (fun n => n) 7 0).1.buckets.getD j { entries := [], capacity := 0 } =
           sampleCache.buckets.getD j { entries := [], capacity := 0 }) :=
  ⟨⟨by decide,
    (get_spec Nat Nat (fun n => n) sampleCache 5 0 (by decide)).1 (by decide)⟩,
   ⟨by decide,
    (get_spec Nat Nat (fun n => n) sampleCache 7 0 (by decide)).2 (by decide)⟩⟩

end CacheLemmas

section Invariant

variable {K V : Type} [DecidableEq K]

/-- A Boolean that is not `true` is `false`. -/
lemma contains_eq_false_of_ne {s : LRU K V} {k : K}
    (h : ¬s.contains k = true) : s.contains k = false := by
  cases hb : s.contains k with
  | false => rfl
  | true => exact absurd hb h

/-- `LRU::insert` never changes the capacity field. -/
lemma capacity_insert (s : LRU K V) (k : K) (v : V) :
    (s.insert k v).capacity = s.capacity := by
  rw [LRU.insert]
  split
  · rfl
  · split <;> rfl

/-- `LRU::get` never changes the capacity field. -/
lemma get_fst_capacity (s : LRU K V) (k : K) :
    ((s.get k).1).capacity = s.capacity := by
  by_cases h : s.contains k = true
  · obtain ⟨v0, -, -, -, hcap, -⟩ := get_of_contains_true h
    exact hcap
  · rw [get_of_contains_false (contains_eq_false_of_ne h)]

/-- `LRU::get` never changes the number of entries. -/
lemma get_fst_size (s : LRU K V) (k : K) : ((s.get k).1).size = s.size := by
  by_cases h : s.contains k = true
  · obtain ⟨v0, -, -, -, -, hsize⟩ := get_of_contains_true h
    exact hsize
  · rw [get_of_contains_false (contains_eq_false_of_ne h)]

/-- `LRU::insert` keeps the size within a positive capacity: a full LRU
first evicts its tail. -/
lemma insert_size_le (s : LRU K V) (k : K) (v : V) (h1 : s.size ≤ s.capacity)
    (h2 : 0 < s.capacity) : (s.insert k v).size ≤ s.capacity := by
  have hs : s.size = s.entries.length := rfl
  rw [LRU.insert]
  by_cases hc : s.contains k = true
  · rw [if_pos hc]
    exact h1
  · rw [if_neg hc]
    by_cases hf : s.capacity ≤ s.size
    · rw [if_pos hf]
      show ((k, v) :: s.entries.dropLast).length ≤ s.capacity
      rw [List.length_cons, List.length_dropLast]
      omega
    · rw [if_neg hf]
      show ((k, v) :: s.entries).length ≤ s.capacity
      rw [List.length_cons]
      omega

/-- `LRU::evict(key)` never grows the LRU. -/
lemma evict_size_le (s : LRU K V) (k : K) : (s.evict k).size ≤ s.size :=
  List.length_eraseP_le s.entries

/-- `Bucket::get` returns the state the inner `LRU::get` produced. -/
lemma bucket_get_fst (s : LRU K V) (k : K) :
    (Bucket.get s k).1 = (s.get k).1 := by
  rw [Bucket.get]
  rcases hg : LRU.get s k with ⟨s', r⟩
  cases r <;> rfl

/-- `Bucket::putIfAbsent` never changes the capacity field. -/
lemma putIfAbsent_fst_capacity (s : LRU K V) (k : K) (v : V) :
    ((Bucket.putIfAbsent s k v).1).capacity = s.capacity := by
  by_cases h : s.contains k = true
  · obtain ⟨v0, -, hv2, -, hcap, -⟩ := get_of_contains_true h
    have hpair : LRU.get s k = ((s.get k).1, some v0) := by rw [← hv2]
    rw [Bucket.putIfAbsent, hpair]
    exact hcap
  · rw [Bucket.putIfAbsent, get_of_contains_false (contains_eq_false_of_ne h)]
    exact capacity_insert s k v

/-- `Bucket::putIfAbsent` keeps the size within a positive capacity. -/
lemma putIfAbsent_fst_size_le (s : LRU K V) (k : K) (v : V)
    (h1 : s.size ≤ s.capacity) (h2 : 0 < s.capacity) :
    ((Bucket.putIfAbsent s k v).1).size ≤ s.capacity := by
  by_cases h : s.contains k = true
  · obtain ⟨v0, -, hv2, -, -, hsize⟩ := get_of_contains_true h
    have hpair : LRU.get s k = ((s.get k).1, some v0) := by rw [← hv2]
    rw [Bucket.putIfAbsent, hpair]
    rw [show ((s.get k).1, StatusOr.ok v0).1 = (s.get k).1 from rfl, hsize]
    exact h1
  · rw [Bucket.putIfAbsent, get_of_contains_false (contains_eq_false_of_ne h)]
    exact insert_size_le s k v h1 h2

omit [DecidableEq K] in
/-- Capacity of the mapped list at a valid index. -/
lemma getD_map_capacity (l : List (LRU K V)) (i : Nat) (h : i < l.length) :
    (l.map LRU.capacity).getD i 0 =
      (l.getD i { entries := [], capacity := 0 }).capacity := by
  rw [List.getD_eq_getElem?_getD, List.getD_eq_getElem?_getD, List.getElem?_map,
    List.getElem?_eq_getElem h]
  rfl

/-- Invariant maintained by every cache operation: the bucket vector keeps
its `2 ^ bucketsExp` length, every shard stays within its positive capacity,
and the shard capacities sum to the construction-time total. -/
def cacheInv (cap : Nat) (c : ConcurrentLRUCache K V) : Prop :=
  c.buckets.length = 2 ^ c.bucketsExp ∧
  (∀ b ∈ c.buckets, b.size ≤ b.capacity ∧ 0 < b.capacity) ∧
  (c.buckets.map LRU.capacity).sum = cap

omit [DecidableEq K] in
/-- Updating one valid bucket with a capacity-preserving, size-bounded result
preserves the invariant. -/
lemma cacheInv_set (cap : Nat) (c : ConcurrentLRUCache K V) (i : Nat)
    (b' : LRU K V) (hInv : cacheInv cap c) (hi : i < c.buckets.length)
    (hcap : b'.capacity = (c.buckets.getD i { entries := [], capacity := 0 }).capacity)
    (hsize : (c.buckets.getD i { entries := [], capacity := 0 }).size ≤
        (c.buckets.getD i { entries := [], capacity := 0 }).capacity →
      0 < (c.buckets.getD i { entries := [], capacity := 0 }).capacity →
      b'.size ≤ b'.capacity) :
    cacheInv cap { c with buckets := c.buckets.set i b' } := by
  obtain ⟨hlen, hbnd, hsum⟩ := hInv
  have hb := hbnd _ (getD_mem c.buckets i { entries := [], capacity := 0 } hi)
  refine ⟨by simpa using hlen, ?_, ?_⟩
  · intro b hbmem
    rcases List.mem_or_eq_of_mem_set hbmem with hmem | rfl
    · exact hbnd b hmem
    · exact ⟨hsize hb.1 hb.2, by rw [hcap]; exact hb.2⟩
  · show ((c.buckets.set i b').map LRU.capacity).sum = cap
    rw [List.map_set, hcap, ← getD_map_capacity c.buckets i hi,
      set_getD_self _ _ _ (by simpa using hi)]
    exact hsum

omit [DecidableEq K] in
/-- `clear()` preserves the invariant. -/
lemma cacheInv_clear (cap : Nat) (c : ConcurrentLRUCache K V)
    (hInv : cacheInv cap c) : cacheInv cap c.clear := by
  obtain ⟨hlen, hbnd, hsum⟩ := hInv
  refine ⟨?_, ?_, ?_⟩
  · show (c.buckets.map LRU.clear).length = 2 ^ c.bucketsExp
    rw [List.length_map]
    exact hlen
  · intro b hb
    obtain ⟨b0, hb0, rfl⟩ := List.mem_map.1 hb
    exact ⟨Nat.zero_le _, (hbnd b0 hb0).2⟩
  · show ((c.buckets.map LRU.clear).map LRU.capacity).sum = cap
    rw [List.map_map]
    exact hsum

/-- Every single operation preserves the invariant. -/
lemma cacheInv_applyOp (hash : K → Nat) (cap : Nat)
    (c : ConcurrentLRUCache K V) (op : CacheOp K V) (hInv : cacheInv cap c) :
    cacheInv cap (applyOp hash c op) := by
  cases op with
  | insert k v hint =>
    exact cacheInv_set cap c _ _ hInv
      (by rw [hInv.1]; exact bucketIndex_lt hash c.bucketsExp k hint)
      (capacity_insert _ k v)
      (fun h1 h2 => by rw [capacity_insert]; exact insert_size_le _ k v h1 h2)
  | get k hint =>
    exact cacheInv_set cap c _ _ hInv
      (by rw [hInv.1]; exact bucketIndex_lt hash c.bucketsExp k hint)
      (by rw [bucket_get_fst]; exact get_fst_capacity _ k)
      (fun h1 h2 => by
        rw [bucket_get_fst, get_fst_capacity, get_fst_size]; exact h1)
  | putIfAbsent k v hint =>
    exact cacheInv_set cap c _ _ hInv
      (by rw [hInv.1]; exact bucketIndex_lt hash c.bucketsExp k hint)
      (putIfAbsent_fst_capacity _ k v)
      (fun h1 h2 => by
        rw [putIfAbsent_fst_capacity]; exact putIfAbsent_fst_size_le _ k v h1 h2)
  | evict k hint =>
    exact cacheInv_set cap c _ _ hInv
      (by rw [hInv.1]; exact bucketIndex_lt hash c.bucketsExp k hint)
      rfl
      (fun h1 h2 => Nat.le_trans (evict_size_le _ k) h1)
  | clear =>
    exact cacheInv_clear cap c hInv

/-- Every sequence of operations preserves the invariant. -/
lemma cacheInv_applyOps (hash : K → Nat) (cap : Nat)
    (c : ConcurrentLRUCache K V) (ops : List (CacheOp K V))
    (hInv : cacheInv cap c) : cacheInv cap (applyOps hash c ops) := by
  induction ops generalizing c with
  | nil => exact hInv
  | cons op rest ih => exact ih _ (cacheInv_applyOp hash cap c op hInv)

/-- The shard capacities assigned by the constructor sum to the total. -/
lemma caps_sum_literal (K V : Type) (capacity bucketsExp : Nat) :
    ((List.replicate (2 ^ bucketsExp - 1)
        ({ entries := [], capacity := capacity / 2 ^ bucketsExp } : LRU K V) ++
      [({ entries := [],
          capacity := capacity / 2 ^ bucketsExp + capacity % 2 ^ bucketsExp } :
        LRU K V)]).map
      LRU.capacity).sum = capacity := by
  rw [List.map_append, List.sum_append, List.map_replicate]
  simp only [List.map_cons, List.map_nil, List.sum_cons, List.sum_nil,
    List.sum_replicate, smul_eq_mul, Nat.add_zero]
  have h1 : (2 ^ bucketsExp - 1) * (capacity / 2 ^ bucketsExp) +
      1 * (capacity / 2 ^ bucketsExp) =
        2 ^ bucketsExp * (capacity / 2 ^ bucketsExp) := by
    rw [← Nat.add_mul, Nat.sub_add_cancel (Nat.two_pow_pos bucketsExp)]
  rw [← Nat.add_assoc]
  rw [show (2 ^ bucketsExp - 1) * (capacity / 2 ^ bucketsExp) +
        capacity / 2 ^ bucketsExp =
        2 ^ bucketsExp * (capacity / 2 ^ bucketsExp) by rw [← h1, Nat.one_mul]]
  exact Nat.div_add_mod capacity (2 ^ bucketsExp)

/-- A successfully constructed cache satisfies the invariant. -/
lemma cacheInv_mk? (K V : Type) (capacity bucketsExp : Nat)
    (c0 : ConcurrentLRUCache K V)
    (hmk : ConcurrentLRUCache.mk? K V capacity bucketsExp = some c0) :
    cacheInv capacity c0 := by
  by_cases h : 2 ^ bucketsExp < capacity
  · rw [mk?_eq_some K V capacity bucketsExp h] at hmk
    obtain rfl := Option.some.inj hmk
    refine ⟨?_, ?_, ?_⟩
    · show (List.replicate (2 ^ bucketsExp - 1) _ ++ [_]).length = 2 ^ bucketsExp
      simp only [List.length_append, List.length_replicate, List.length_cons,
        List.length_nil]
      exact Nat.succ_pred_eq_of_pos (Nat.two_pow_pos bucketsExp)
    · intro b hb
      rcases List.mem_append.1 hb with hb | hb
      · obtain rfl := List.eq_of_mem_replicate hb
        exact ⟨Nat.zero_le _, capPerBucket_pos capacity bucketsExp h⟩
      · rw [List.mem_singleton] at hb
        obtain rfl := hb
        exact ⟨Nat.zero_le _,
          Nat.lt_of_lt_of_le (capPerBucket_pos capacity bucketsExp h)
            (Nat.le_add_right _ _)⟩
    · exact caps_sum_literal K V capacity bucketsExp
  · rw [ConcurrentLRUCache.mk?, if_neg (fun hc => h hc.1)] at hmk
    cases hmk

/-- C6.  After a successful construction, every sequence of cache operations
keeps each shard's size within that shard's assigned capacity, so the shard
sizes always sum to at most the total capacity. -/
theorem capacity_bound (K V : Type) [DecidableEq K] (hash : K → Nat)
    (capacity bucketsExp : Nat) (c0 : ConcurrentLRUCache K V)
    (hmk : ConcurrentLRUCache.mk? K V capacity bucketsExp = some c0)
    (ops : List (CacheOp K V)) :
    (∀ b ∈ (applyOps hash c0 ops).buckets, b.size ≤ b.capacity) ∧
    ((applyOps hash c0 ops).buckets.map LRU.size).sum ≤ capacity := by
  have hInv := cacheInv_applyOps hash capacity c0 ops
    (cacheInv_mk? K V capacity bucketsExp c0 hmk)
  refine ⟨fun b hb => (hInv.2.1 b hb).1, ?_⟩
  calc ((applyOps hash c0 ops).buckets.map LRU.size).sum
      ≤ ((applyOps hash c0 ops).buckets.map LRU.capacity).sum :=
        List.sum_le_sum (fun b hb => (hInv.2.1 b hb).1)
    _ = capacity := hInv.2.2

/-- Witness for C6: a two-shard cache of capacity 5, exercised by inserts
(including one that forces a capacity eviction), a get, an evict and a
clear. -/
theorem capacity_bound_witness :
    ConcurrentLRUCache.mk? Nat Nat 5 1 =
      some { buckets := [{ entries := [], capacity := 2 },
                         { entries := [], capacity := 3 }], bucketsExp := 1 } ∧
    ((∀ b ∈ (applyOps (fun n => n)
        { buckets := [{ entries := [], capacity := 2 },
                      { entries := [], capacity := 3 }], bucketsExp := 1 }
        [CacheOp.insert 0 0 (-1), CacheOp.insert 2 2 (-1), CacheOp.insert 4 4 (-1),
         CacheOp.insert 1 1 0, CacheOp.get 2 (-1), CacheOp.evict 0 (-1)]).buckets,
        b.size ≤ b.capacity) ∧
     ((applyOps (fun n => n)
        { buckets := [{ entries := [], capacity := 2 },
                      { entries := [], capacity := 3 }], bucketsExp := 1 }
        [CacheOp.insert 0 0 (-1), CacheOp.insert 2 2 (-1), CacheOp.insert 4 4 (-1),
         CacheOp.insert 1 1 0, CacheOp.get 2 (-1), CacheOp.evict 0 (-1)]).buckets.map
        LRU.size).sum ≤ 5) :=
  ⟨by decide,
   capacity_bound Nat Nat (fun n => n) 5 1
     { buckets := [{ entries := [], capacity := 2 },
                   { entries := [], capacity := 3 }], bucketsExp := 1 }
     (by decide)
     [CacheOp.insert 0 0 (-1), CacheOp.insert 2 2 (-1), CacheOp.insert 4 4 (-1),
      CacheOp.insert 1 1 0, CacheOp.get 2 (-1), CacheOp.evict 0 (-1)]⟩

end Invariant

end Nebula
